import Mathlib

/- Verification of the UAV delivery path optimizer (DeliveryUAV::solve and
DeliveryUAV::solveCase) against its design specification.  The C++ doubles
are modelled as real numbers; vectors are modelled as index functions or
lists built exactly as the source builds them. -/

namespace UAV

/-- A course point: planar coordinates plus the penalty charged when the
point is skipped (struct WayPoint in delivery_uav.h). -/
structure WayPoint where
  x : ℝ
  y : ℝ
  penalty : ℝ

/-- The value std numeric limits double max used to initialise the inner
minimisation in DeliveryUAV solve: the largest finite double,
(2^53 - 1) * 2^971. -/
noncomputable def DBL_MAX : ℝ := (2 ^ 53 - 1) * 2 ^ 971

theorem DBL_MAX_pos : 0 < DBL_MAX := by
  unfold DBL_MAX; positivity

/-- Straight-line distance std hypot(b.x - a.x, b.y - a.y) between points
a and b. -/
noncomputable def wdist (a b : WayPoint) : ℝ :=
  Real.sqrt ((b.x - a.x) ^ 2 + (b.y - a.y) ^ 2)

theorem wdist_nonneg (a b : WayPoint) : 0 ≤ wdist a b :=
  Real.sqrt_nonneg _

/-- One step of the inner j loop of DeliveryUAV solve: compare the candidate
time f j against the best time so far and keep the strictly better pair
(min_time, bestPrev). -/
noncomputable def stepMin (f : ℕ → ℝ) (acc : ℝ × ℤ) (j : ℕ) : ℝ × ℤ :=
  if f j < acc.1 then (f j, (j : ℤ)) else acc

/-- The inner j loop of DeliveryUAV solve for row i: fold over
j = 0, …, i-1 starting from min_time = DBL_MAX and bestPrev = -1. -/
noncomputable def minIdxFold (f : ℕ → ℝ) (i : ℕ) : ℝ × ℤ :=
  (List.range i).foldl (stepMin f) (DBL_MAX, -1)

theorem minIdxFold_zero (f : ℕ → ℝ) : minIdxFold f 0 = (DBL_MAX, -1) := rfl

theorem minIdxFold_succ (f : ℕ → ℝ) (i : ℕ) :
    minIdxFold f (i + 1) = stepMin f (minIdxFold f i) i := by
  simp [minIdxFold, List.range_succ]

/-- The fold only looks at f below the bound. -/
theorem minIdxFold_congr {f g : ℕ → ℝ} (i : ℕ) (h : ∀ j < i, f j = g j) :
    minIdxFold f i = minIdxFold g i := by
  induction i with
  | zero => rfl
  | succ i ih =>
      rw [minIdxFold_succ, minIdxFold_succ,
        ih fun j hj => h j (Nat.lt_succ_of_lt hj)]
      unfold stepMin
      rw [h i (Nat.lt_succ_self i)]

/-- Exact description of the inner loop's fold state: either no candidate
ever beat the DBL_MAX sentinel, or the state holds the first smallest
candidate together with its index. -/
theorem minIdxFold_spec (f : ℕ → ℝ) (i : ℕ) :
    ((minIdxFold f i).1 = DBL_MAX ∧ (minIdxFold f i).2 = -1 ∧
      ∀ j < i, ¬ f j < DBL_MAX) ∨
    (∃ j₀ : ℕ, j₀ < i ∧ (minIdxFold f i).2 = (j₀ : ℤ) ∧
      (minIdxFold f i).1 = f j₀ ∧ f j₀ < DBL_MAX ∧
      (∀ j < i, f j₀ ≤ f j) ∧ ∀ j < j₀, f j₀ < f j) := by
  induction i with
  | zero =>
      left
      exact ⟨rfl, rfl, fun j hj => absurd hj (Nat.not_lt_zero j)⟩
  | succ i ih =>
      rw [minIdxFold_succ]
      rcases ih with ⟨h1, h2, h3⟩ | ⟨j₀, hj₀i, hsnd, hfst, hlt, hmin, hfirst⟩
      · by_cases hc : f i < DBL_MAX
        · right
          refine ⟨i, Nat.lt_succ_self i, ?_, ?_, hc, ?_, ?_⟩
          · simp [stepMin, h1, hc]
          · simp [stepMin, h1, hc]
          · intro j hj
            rcases Nat.lt_succ_iff_lt_or_eq.mp hj with hj' | hj'
            · exact le_of_lt (lt_of_lt_of_le hc (not_lt.mp (h3 j hj')))
            · exact le_of_eq (by rw [hj'])
          · intro j hj
            exact lt_of_lt_of_le hc (not_lt.mp (h3 j hj))
        · left
          refine ⟨?_, ?_, ?_⟩
          · simp [stepMin, h1, hc]
          · simp [stepMin, h1, hc, h2]
          · intro j hj
            rcases Nat.lt_succ_iff_lt_or_eq.mp hj with hj' | hj'
            · exact h3 j hj'
            · rw [hj']; exact hc
      · right
        by_cases hc : f i < f j₀
        · refine ⟨i, Nat.lt_succ_self i, ?_, ?_, lt_trans hc hlt, ?_, ?_⟩
          · simp [stepMin, hfst, hc]
          · simp [stepMin, hfst, hc]
          · intro j hj
            rcases Nat.lt_succ_iff_lt_or_eq.mp hj with hj' | hj'
            · exact le_of_lt (lt_of_lt_of_le hc (hmin j hj'))
            · exact le_of_eq (by rw [hj'])
          · intro j hj
            exact lt_of_lt_of_le hc (hmin j hj)
        · refine ⟨j₀, Nat.lt_succ_of_lt hj₀i, ?_, ?_, hlt, ?_, hfirst⟩
          · simp [stepMin, hfst, hc, hsnd]
          · simp [stepMin, hfst, hc]
          · intro j hj
            rcases Nat.lt_succ_iff_lt_or_eq.mp hj with hj' | hj'
            · exact hmin j hj'
            · rw [hj']; exact not_lt.mp hc

/-- The outer i loop of DeliveryUAV solve, building the dp and prev_waypoint
arrays left to right exactly as the source does: entry i of the table is
the pair (dp i, prev_waypoint i).  dp 0 = 0 and prev_waypoint 0 keeps its
-1 sentinel; row i+1 folds the inner loop over the rows already built and
then adds the mandatory wait_time. -/
noncomputable def dpTable (speed wait : ℝ) (w : ℕ → WayPoint) (pre : ℕ → ℝ) :
    ℕ → List (ℝ × ℤ)
  | 0 => [(0, -1)]
  | i + 1 =>
      let t := dpTable speed wait w pre i
      let r := minIdxFold
        (fun j => (t.getD j (0, -1)).1 + wdist (w j) (w (i + 1)) / speed +
          (pre i - pre j)) (i + 1)
      t ++ [(r.1 + wait, r.2)]

/-- dp i, the minimum time to reach point i computed by the source's loop. -/
noncomputable def dpC (speed wait : ℝ) (w : ℕ → WayPoint) (pre : ℕ → ℝ) (i : ℕ) : ℝ :=
  ((dpTable speed wait w pre i).getD i (0, -1)).1

/-- prev_waypoint i, the best predecessor recorded by the source's loop. -/
noncomputable def prevW (speed wait : ℝ) (w : ℕ → WayPoint) (pre : ℕ → ℝ) (i : ℕ) : ℤ :=
  ((dpTable speed wait w pre i).getD i (0, -1)).2

/-- time_candidate of the source for row i and predecessor j. -/
noncomputable def candF (speed wait : ℝ) (w : ℕ → WayPoint) (pre : ℕ → ℝ)
    (i j : ℕ) : ℝ :=
  dpC speed wait w pre j + wdist (w j) (w i) / speed + (pre (i - 1) - pre j)

/-- The path reconstruction loop of DeliveryUAV solve: push the current
index and follow prev_waypoint, stopping at index 0; the fuel argument
bounds the number of iterations of the source's while loop. -/
def backtrackAux (prev : ℕ → ℤ) : ℕ → ℤ → List ℤ
  | 0, _ => []
  | fuel + 1, cur =>
      if cur = 0 then [] else cur :: backtrackAux prev fuel (prev cur.toNat)

/-- DeliveryUAV solve (the variant with path reconstruction): run the dp
over indices 0..total, then backtrack prev_waypoint from the terminal,
append the start index and reverse.  total is waypoints.size() - 1, and a
fuel of total steps covers the source's loop whenever prev_waypoint
strictly decreases. -/
noncomputable def solve (speed wait : ℝ) (w : ℕ → WayPoint) (pre : ℕ → ℝ)
    (total : ℕ) : ℝ × List ℤ :=
  (dpC speed wait w pre total,
   (backtrackAux (prevW speed wait w pre) total (total : ℤ) ++ [0]).reverse)

/-- Cumulative skip penalties of waypoints 1..i, the loop of the penalty
precomputation section of solveCase. -/
noncomputable def prefixSums (w : ℕ → WayPoint) : ℕ → ℝ
  | 0 => 0
  | i + 1 => prefixSums w i + (w (i + 1)).penalty

/-- The full penalty array built by solveCase for a course with n interior
waypoints: entries 0..n are the cumulative sums and entry n+1 repeats
entry n (the terminal carries no penalty). -/
noncomputable def prefixPen (w : ℕ → WayPoint) (n : ℕ) (i : ℕ) : ℝ :=
  if i ≤ n then prefixSums w i else prefixSums w n

/-- The UAV object: the constructor (DeliveryUAV::DeliveryUAV) stores the
two parameters unchanged, with no validation (the source comments leave
validity to the caller). -/
structure DeliveryUAV where
  uav_speed : ℝ
  wait_time : ℝ

/-- The source constructor: member initialisation only. -/
def DeliveryUAV.make (speed wait_time : ℝ) : DeliveryUAV :=
  ⟨speed, wait_time⟩

/-- DeliveryUAV solveCase, with its input file modelled as the parsed
leading waypoint count nTok followed by the list of numeric tokens of the
file.  A C++11 stream extraction past the end of the data writes 0.0 and
every later extraction also fails to 0.0, which List.getD with default 0
reproduces.  The returned pair is the exit status together with the result
written to the output file (none when the function returns early). -/
noncomputable def solveCase (speed wait : ℝ) (nTok : ℤ) (rest : List ℝ) :
    ℤ × Option (ℝ × List ℤ) :=
  if nTok < 0 then (1, none)
  else
    let n := nTok.toNat
    let w : ℕ → WayPoint := fun i =>
      if i = 0 then ⟨rest.getD 0 0, rest.getD 1 0, 0⟩
      else if i = n + 1 then ⟨rest.getD 2 0, rest.getD 3 0, 0⟩
      else ⟨rest.getD (4 + 3 * (i - 1)) 0, rest.getD (5 + 3 * (i - 1)) 0,
        rest.getD (6 + 3 * (i - 1)) 0⟩
    (0, some (solve speed wait w (prefixPen w n) (n + 1)))

/-- Travel time of a visited index sequence: Euclidean leg lengths divided
by the speed (specification, section 4.1). -/
noncomputable def travelCost (speed : ℝ) (w : ℕ → WayPoint) : List ℕ → ℝ
  | a :: b :: rest => wdist (w a) (w b) / speed + travelCost speed w (b :: rest)
  | _ => 0

/-- An admissible visiting sequence ending at i: strictly increasing
indices starting at 0 and ending at i (specification, section 4.1: start
and terminal always included, waypoints visited in increasing order). -/
def ValidPathTo (i : ℕ) (p : List ℕ) : Prop :=
  List.Chain' (· < ·) p ∧ p.head? = some 0 ∧ p.getLast? = some i

/-- Total cost of an admissible sequence ending at i: travel time, one
wait_time per visited node after the start, and the skip penalty of every
waypoint in 1..i-1 that is not visited (specification, section 4.1). -/
noncomputable def pathCostTo (speed wait : ℝ) (w : ℕ → WayPoint) (i : ℕ)
    (p : List ℕ) : ℝ :=
  travelCost speed w p + wait * ((p.length - 1 : ℕ) : ℝ) +
    ∑ k in Finset.Ioo 0 i \ p.toFinset, (w k).penalty

/-- Side condition making every row of the dp leave its DBL_MAX sentinel:
the j = 0 candidate is below DBL_MAX.  For inputs representable as finite
doubles this is the statement that the direct flight from the start plus
the total penalty does not overflow. -/
def FiniteCands (speed wait : ℝ) (w : ℕ → WayPoint) (pre : ℕ → ℝ)
    (total : ℕ) : Prop :=
  ∀ i, 1 ≤ i → i ≤ total → candF speed wait w pre i 0 < DBL_MAX

theorem dpTable_succ_eq (speed wait : ℝ) (w : ℕ → WayPoint) (pre : ℕ → ℝ) (i : ℕ) :
    dpTable speed wait w pre (i + 1) =
      dpTable speed wait w pre i ++
        [((minIdxFold (fun j => ((dpTable speed wait w pre i).getD j (0, -1)).1 +
            wdist (w j) (w (i + 1)) / speed + (pre i - pre j)) (i + 1)).1 + wait,
          (minIdxFold (fun j => ((dpTable speed wait w pre i).getD j (0, -1)).1 +
            wdist (w j) (w (i + 1)) / speed + (pre i - pre j)) (i + 1)).2)] := rfl

theorem dpTable_length (speed wait : ℝ) (w : ℕ → WayPoint) (pre : ℕ → ℝ) (i : ℕ) :
    (dpTable speed wait w pre i).length = i + 1 := by
  induction i with
  | zero => rfl
  | succ i ih => rw [dpTable_succ_eq]; simp [ih]

theorem dpTable_getD_succ (speed wait : ℝ) (w : ℕ → WayPoint) (pre : ℕ → ℝ)
    {j i : ℕ} (h : j ≤ i) :
    (dpTable speed wait w pre (i + 1)).getD j (0, -1) =
      (dpTable speed wait w pre i).getD j (0, -1) := by
  rw [dpTable_succ_eq]
  exact List.getD_append _ _ _ _ (by rw [dpTable_length]; omega)

theorem dpTable_getD_mono (speed wait : ℝ) (w : ℕ → WayPoint) (pre : ℕ → ℝ)
    {i k : ℕ} (h : i ≤ k) :
    (dpTable speed wait w pre k).getD i (0, -1) =
      (dpTable speed wait w pre i).getD i (0, -1) := by
  induction k with
  | zero => rw [Nat.le_zero.mp h]
  | succ k ih =>
      rcases Nat.le_succ_iff_eq_or_le.mp h with h' | h'
      · rw [h']
      · rw [dpTable_getD_succ speed wait w pre h', ih h']

theorem dpC_zero (speed wait : ℝ) (w : ℕ → WayPoint) (pre : ℕ → ℝ) :
    dpC speed wait w pre 0 = 0 := rfl

theorem prevW_zero (speed wait : ℝ) (w : ℕ → WayPoint) (pre : ℕ → ℝ) :
    prevW speed wait w pre 0 = -1 := rfl

/-- Row i+1 of the dp is exactly the inner fold of the candidates against
the already-finalised rows, plus the wait_time; the predecessor entry is
the index kept by the fold. -/
theorem dpRow_succ (speed wait : ℝ) (w : ℕ → WayPoint) (pre : ℕ → ℝ) (i : ℕ) :
    dpC speed wait w pre (i + 1) =
      (minIdxFold (candF speed wait w pre (i + 1)) (i + 1)).1 + wait ∧
    prevW speed wait w pre (i + 1) =
      (minIdxFold (candF speed wait w pre (i + 1)) (i + 1)).2 := by
  have hlen : (dpTable speed wait w pre i).length = i + 1 :=
    dpTable_length speed wait w pre i
  have hcongr : minIdxFold (fun j => ((dpTable speed wait w pre i).getD j (0, -1)).1 +
      wdist (w j) (w (i + 1)) / speed + (pre i - pre j)) (i + 1) =
      minIdxFold (candF speed wait w pre (i + 1)) (i + 1) := by
    apply minIdxFold_congr
    intro j hj
    have hji : j ≤ i := Nat.lt_succ_iff.mp hj
    rw [dpTable_getD_mono speed wait w pre hji]
    simp [candF, dpC]
  have hget : ∀ v : ℝ × ℤ,
      (dpTable speed wait w pre i ++ [v]).getD (i + 1) (0, -1) = v := by
    intro v
    rw [List.getD_append_right _ _ _ _ (by omega), hlen]
    simp
  constructor
  · show ((dpTable speed wait w pre (i + 1)).getD (i + 1) (0, -1)).1 = _
    rw [dpTable_succ_eq, hget, hcongr]
  · show ((dpTable speed wait w pre (i + 1)).getD (i + 1) (0, -1)).2 = _
    rw [dpTable_succ_eq, hget, hcongr]

theorem mem_of_getLast?_eq {l : List ℕ} {a : ℕ} (h : l.getLast? = some a) :
    a ∈ l := by
  cases l with
  | nil => simp at h
  | cons b t =>
      rw [List.getLast?_eq_getLast_of_ne_nil (List.cons_ne_nil b t)] at h
      rw [← Option.some.inj h]
      exact List.getLast_mem _

theorem le_getLast_of_chainLt :
    ∀ {p : List ℕ} {m : ℕ}, List.Chain' (· < ·) p → p.getLast? = some m →
      ∀ x ∈ p, x ≤ m := by
  intro p
  induction p with
  | nil => intro m _ h; simp at h
  | cons a t ih =>
      intro m hchain hlast x hx
      cases t with
      | nil =>
          simp at hlast hx
          omega
      | cons b t' =>
          rw [List.getLast?_cons_cons] at hlast
          have h2 := List.chain'_cons.mp hchain
          rcases List.mem_cons.mp hx with hx' | hx'
          · have hb : b ≤ m := ih h2.2 hlast b (List.mem_cons_self b t')
            have hab : a < b := h2.1
            omega
          · exact ih h2.2 hlast x hx'

theorem travelCost_concat (speed : ℝ) (w : ℕ → WayPoint) :
    ∀ (p : List ℕ) (j i : ℕ), p.getLast? = some j →
      travelCost speed w (p ++ [i]) =
        travelCost speed w p + wdist (w j) (w i) / speed := by
  intro p
  induction p with
  | nil => intro j i h; simp at h
  | cons a t ih =>
      intro j i h
      cases t with
      | nil =>
          simp at h
          subst h
          simp [travelCost]
      | cons b t' =>
          rw [List.getLast?_cons_cons] at h
          have hrec := ih j i h
          simp only [List.cons_append] at hrec ⊢
          rw [travelCost, travelCost, hrec]
          ring

theorem prefixSums_eq_sum (w : ℕ → WayPoint) (k : ℕ) :
    prefixSums w k = ∑ m in Finset.Icc 1 k, (w m).penalty := by
  induction k with
  | zero => simp [prefixSums]
  | succ k ih =>
      rw [prefixSums, ih, Finset.sum_Icc_succ_top (by omega)]

theorem prefixSums_sub_eq (w : ℕ → WayPoint) {j i : ℕ} (h : j < i) :
    prefixSums w (i - 1) - prefixSums w j =
      ∑ k in Finset.Ioo j i, (w k).penalty := by
  rw [prefixSums_eq_sum, prefixSums_eq_sum,
    ← Finset.sum_sdiff_eq_sub (Finset.Icc_subset_Icc_right (by omega))]
  congr 1
  ext x
  simp only [Finset.mem_sdiff, Finset.mem_Icc, Finset.mem_Ioo]
  omega

theorem Ioo_sdiff_eq_union (q : List ℕ) {j i : ℕ} (hj : j ∈ q)
    (hle : ∀ x ∈ q, x ≤ j) (hji : j < i) :
    Finset.Ioo 0 i \ q.toFinset =
      (Finset.Ioo 0 j \ q.toFinset) ∪ Finset.Ioo j i := by
  ext x
  simp only [Finset.mem_sdiff, Finset.mem_Ioo, Finset.mem_union, List.mem_toFinset]
  constructor
  · rintro ⟨⟨hx0, hxi⟩, hxq⟩
    by_cases hxj : x ≤ j
    · left
      have hne : x ≠ j := fun he => hxq (he ▸ hj)
      exact ⟨⟨hx0, by omega⟩, hxq⟩
    · right; omega
  · rintro (⟨⟨hx0, hxj⟩, hxq⟩ | ⟨hjx, hxi⟩)
    · exact ⟨⟨hx0, by omega⟩, hxq⟩
    · refine ⟨⟨by omega, hxi⟩, fun hxq => ?_⟩
      exact absurd (hle x hxq) (by omega)

theorem Ioo_sdiff_disjoint (q : List ℕ) (j i : ℕ) :
    Disjoint (Finset.Ioo 0 j \ q.toFinset) (Finset.Ioo j i) := by
  apply Finset.disjoint_left.mpr
  intro x hx hx'
  simp only [Finset.mem_sdiff, Finset.mem_Ioo] at hx hx'
  omega

/-- Appending the next visited index i to an admissible sequence ending at
j adds the travel leg, the penalties of the skipped range, and one
wait_time. -/
theorem pathCostTo_concat (speed wait : ℝ) (w : ℕ → WayPoint) {q : List ℕ}
    {j i : ℕ} (hq : ValidPathTo j q) (hji : j < i) :
    pathCostTo speed wait w i (q ++ [i]) =
      pathCostTo speed wait w j q +
        (wdist (w j) (w i) / speed + (prefixSums w (i - 1) - prefixSums w j) +
          wait) := by
  obtain ⟨hchain, hhead, hlast⟩ := hq
  have hqne : q ≠ [] := by intro h; rw [h] at hhead; simp at hhead
  have hlen : 1 ≤ q.length := List.length_pos.mpr hqne
  have hjq : j ∈ q := mem_of_getLast?_eq hlast
  have hle : ∀ x ∈ q, x ≤ j := le_getLast_of_chainLt hchain hlast
  unfold pathCostTo
  rw [travelCost_concat speed w q j i hlast]
  have hpen : Finset.Ioo 0 i \ (q ++ [i]).toFinset =
      Finset.Ioo 0 i \ q.toFinset := by
    ext x
    simp only [Finset.mem_sdiff, Finset.mem_Ioo, List.toFinset_append,
      Finset.mem_union, List.mem_toFinset, List.toFinset_cons, List.toFinset_nil,
      insert_emptyc_eq, Finset.mem_singleton]
    constructor
    · rintro ⟨⟨h1, h2⟩, h3⟩
      exact ⟨⟨h1, h2⟩, fun hq' => h3 (Or.inl hq')⟩
    · rintro ⟨⟨h1, h2⟩, h3⟩
      refine ⟨⟨h1, h2⟩, ?_⟩
      rintro (h | h)
      · exact h3 h
      · omega
  rw [hpen, Ioo_sdiff_eq_union q hjq hle hji,
    Finset.sum_union (Ioo_sdiff_disjoint q j i), ← prefixSums_sub_eq w hji]
  have hc1 : ((q ++ [i]).length - 1 : ℕ) = (q.length - 1) + 1 := by
    simp only [List.length_append, List.length_cons, List.length_nil]
    omega
  rw [hc1]
  push_cast
  ring

/-- Under the finiteness side condition, row i of the dp holds the first
minimal candidate plus the wait, and prev_waypoint holds its index. -/
theorem dpC_argmin (speed wait : ℝ) (w : ℕ → WayPoint) (pre : ℕ → ℝ) {i : ℕ}
    (h1 : 1 ≤ i) (h0 : candF speed wait w pre i 0 < DBL_MAX) :
    ∃ j₀ : ℕ, j₀ < i ∧ prevW speed wait w pre i = (j₀ : ℤ) ∧
      dpC speed wait w pre i = candF speed wait w pre i j₀ + wait ∧
      (∀ j < i, candF speed wait w pre i j₀ ≤ candF speed wait w pre i j) ∧
      (∀ j < j₀, candF speed wait w pre i j₀ < candF speed wait w pre i j) := by
  obtain ⟨m, rfl⟩ : ∃ m, i = m + 1 := ⟨i - 1, by omega⟩
  obtain ⟨hdp, hprev⟩ := dpRow_succ speed wait w pre m
  rcases minIdxFold_spec (candF speed wait w pre (m + 1)) (m + 1) with
    ⟨_, _, hall⟩ | ⟨j₀, hj, hsnd, hfst, _, hmin, hfirst⟩
  · exact absurd h0 (hall 0 (by omega))
  · exact ⟨j₀, hj, by rw [hprev, hsnd], by rw [hdp, hfst], hmin, hfirst⟩

/-- On a course with n interior waypoints, the candidate uses the plain
cumulative penalty sums whenever the row index stays in range. -/
theorem candF_prefixPen (speed wait : ℝ) (w : ℕ → WayPoint) (n : ℕ) {i j : ℕ}
    (hji : j < i) (hi : i ≤ n + 1) :
    candF speed wait w (prefixPen w n) i j =
      dpC speed wait w (prefixPen w n) j + wdist (w j) (w i) / speed +
        (prefixSums w (i - 1) - prefixSums w j) := by
  unfold candF prefixPen
  rw [if_pos (show i - 1 ≤ n by omega), if_pos (show j ≤ n by omega)]

/-- The dp value at every index i ≤ n+1 is the least total cost over all
admissible visiting sequences ending at i. -/
theorem dpC_isLeast (speed wait : ℝ) (w : ℕ → WayPoint) (n : ℕ)
    (hfin : FiniteCands speed wait w (prefixPen w n) (n + 1)) :
    ∀ i, i ≤ n + 1 →
      IsLeast {c | ∃ p, ValidPathTo i p ∧ pathCostTo speed wait w i p = c}
        (dpC speed wait w (prefixPen w n) i) := by
  intro i
  induction i using Nat.strong_induction_on with
  | _ i ih =>
    intro hi
    rcases Nat.eq_zero_or_pos i with rfl | hpos
    · constructor
      · refine ⟨[0], ⟨List.chain'_singleton 0, rfl, rfl⟩, ?_⟩
        simp [pathCostTo, travelCost, dpC_zero]
      · rintro c ⟨p, ⟨hchain, hhead, hlast⟩, rfl⟩
        have hp : p = [0] := by
          cases p with
          | nil => simp at hhead
          | cons a t =>
              have ha : a = 0 := by simpa using hhead
              cases t with
              | nil => rw [ha]
              | cons b t' =>
                  have h2 := List.chain'_cons.mp hchain
                  have hb : b ≤ 0 := le_getLast_of_chainLt hchain hlast b
                    (List.mem_cons.mpr (Or.inr (List.mem_cons_self b t')))
                  omega
        rw [hp]
        simp [pathCostTo, travelCost, dpC_zero]
    · have h0 := hfin i hpos hi
      obtain ⟨j₀, hj₀, _, hdp, hmin, _⟩ :=
        dpC_argmin speed wait w (prefixPen w n) hpos h0
      constructor
      · obtain ⟨⟨p₀, hp₀v, hp₀c⟩, _⟩ := ih j₀ hj₀ (by omega)
        refine ⟨p₀ ++ [i], ?_, ?_⟩
        · obtain ⟨hch, hh, hl⟩ := hp₀v
          refine ⟨?_, ?_, List.getLast?_concat p₀⟩
          · rw [List.chain'_append]
            refine ⟨hch, List.chain'_singleton i, ?_⟩
            intro x hx y hy
            rw [hl] at hx
            have hx' : x = j₀ := (Option.some.inj (Option.mem_def.mp hx)).symm
            have hy' : y = i := (Option.some.inj (Option.mem_def.mp hy)).symm
            rw [hx', hy']
            exact hj₀
          · cases p₀ with
            | nil => simp at hh
            | cons b t => simpa using hh
        · rw [pathCostTo_concat speed wait w hp₀v hj₀, hp₀c, hdp,
            candF_prefixPen speed wait w n hj₀ hi]
          ring
      · rintro c ⟨p, hpv, rfl⟩
        obtain ⟨hchain, hhead, hlast⟩ := hpv
        have hpne : p ≠ [] := by intro h; rw [h] at hhead; simp at hhead
        have hdecomp : p.dropLast ++ [i] = p :=
          List.dropLast_append_getLast? i (Option.mem_def.mpr hlast)
        set q := p.dropLast with hqdef
        have hqne : q ≠ [] := by
          intro h
          rw [h] at hdecomp
          rw [← hdecomp] at hhead
          simp at hhead
          omega
        rw [← hdecomp] at hchain hhead
        obtain ⟨hchq, _, hrel⟩ := List.chain'_append.mp hchain
        obtain ⟨j, hjlast⟩ : ∃ j, q.getLast? = some j :=
          ⟨q.getLast hqne, List.getLast?_eq_getLast_of_ne_nil hqne⟩
        have hji : j < i :=
          hrel j (Option.mem_def.mpr hjlast) i (Option.mem_def.mpr rfl)
        have hhq : q.head? = some 0 := by
          rw [List.head?_append_of_ne_nil q hqne] at hhead
          exact hhead
        have hvq : ValidPathTo j q := ⟨hchq, hhq, hjlast⟩
        have h1 : dpC speed wait w (prefixPen w n) j ≤
            pathCostTo speed wait w j q :=
          (ih j hji (by omega)).2 ⟨q, hvq, rfl⟩
        have h2 := hmin j hji
        rw [candF_prefixPen speed wait w n hji hi] at h2
        rw [← hdecomp, pathCostTo_concat speed wait w hvq hji, hdp]
        linarith

theorem backtrackAux_zero_cur (prev : ℕ → ℤ) : ∀ fuel,
    backtrackAux prev fuel 0 = [] := by
  intro fuel
  cases fuel with
  | zero => rfl
  | succ f => simp [backtrackAux]

/-- With in-range predecessors and enough fuel, the backtrace from cur
yields the strictly decreasing chain of positive indices, and appending
the start gives a strictly decreasing list headed by cur. -/
theorem backtrackAux_spec (prev : ℕ → ℤ) (total : ℕ)
    (hprev : ∀ i, 1 ≤ i → i ≤ total → 0 ≤ prev i ∧ prev i < (i : ℤ)) :
    ∀ fuel (cur : ℕ), cur ≤ fuel → cur ≤ total →
      (backtrackAux prev fuel (cur : ℤ) ++ [0]).head? = some (cur : ℤ) ∧
      List.Chain' (fun a b => b < a) (backtrackAux prev fuel (cur : ℤ) ++ [0]) ∧
      ∀ x ∈ backtrackAux prev fuel (cur : ℤ), 0 < x ∧ x ≤ (cur : ℤ) := by
  intro fuel
  induction fuel with
  | zero =>
      intro cur hf _
      have hc : cur = 0 := Nat.le_zero.mp hf
      subst hc
      refine ⟨rfl, List.chain'_singleton 0, ?_⟩
      intro x hx
      simp [backtrackAux] at hx
  | succ f ih =>
      intro cur hf htot
      rcases Nat.eq_zero_or_pos cur with rfl | hpos
      · rw [show ((0 : ℕ) : ℤ) = 0 from rfl, backtrackAux_zero_cur]
        refine ⟨rfl, List.chain'_singleton 0, ?_⟩
        intro x hx
        simp at hx
      · have hcur : ((cur : ℤ)) ≠ 0 := by
          simp only [ne_eq, Nat.cast_eq_zero]
          omega
        rw [show backtrackAux prev (f + 1) (cur : ℤ) =
            (cur : ℤ) :: backtrackAux prev f (prev ((cur : ℤ)).toNat) from by
          rw [backtrackAux, if_neg hcur]]
        have htn : ((cur : ℤ)).toNat = cur := Int.toNat_ofNat cur
        rw [htn]
        obtain ⟨hnn, hlt⟩ := hprev cur hpos htot
        set nxt := prev cur with hnxt
        have hcast : ((nxt.toNat : ℤ)) = nxt := Int.toNat_of_nonneg hnn
        have hlt' : nxt.toNat < cur := by omega
        have hrec := ih nxt.toNat (by omega) (by omega)
        rw [hcast] at hrec
        obtain ⟨hh, hch, hb⟩ := hrec
        refine ⟨rfl, ?_, ?_⟩
        · rw [List.cons_append]
          rw [List.chain'_cons']
          refine ⟨?_, hch⟩
          intro y hy
          have hy' : y = nxt := by
            rw [hh] at hy
            exact (Option.some.inj (Option.mem_def.mp hy)).symm
          rw [hy']
          exact hlt
        · intro x hx
          rcases List.mem_cons.mp hx with hx' | hx'
          · constructor
            · rw [hx']; exact_mod_cast hpos
            · rw [hx']
          · obtain ⟨hx1, hx2⟩ := hb x hx'
            exact ⟨hx1, by omega⟩

/-- The backtrace is fuel-independent once the fuel covers the start
index: the source's unbounded while loop terminates. -/
theorem backtrackAux_stable (prev : ℕ → ℤ) (total : ℕ)
    (hprev : ∀ i, 1 ≤ i → i ≤ total → 0 ≤ prev i ∧ prev i < (i : ℤ)) :
    ∀ (cur : ℕ), cur ≤ total → ∀ f₁ f₂, cur ≤ f₁ → cur ≤ f₂ →
      backtrackAux prev f₁ (cur : ℤ) = backtrackAux prev f₂ (cur : ℤ) := by
  intro cur
  induction cur using Nat.strong_induction_on with
  | _ cur ih =>
    intro htot f₁ f₂ h1 h2
    rcases Nat.eq_zero_or_pos cur with rfl | hpos
    · rw [show ((0 : ℕ) : ℤ) = 0 from rfl, backtrackAux_zero_cur,
        backtrackAux_zero_cur]
    · obtain ⟨m₁, rfl⟩ : ∃ m, f₁ = m + 1 := ⟨f₁ - 1, by omega⟩
      obtain ⟨m₂, rfl⟩ : ∃ m, f₂ = m + 1 := ⟨f₂ - 1, by omega⟩
      have hcur : ((cur : ℤ)) ≠ 0 := by
        simp only [ne_eq, Nat.cast_eq_zero]
        omega
      rw [backtrackAux, if_neg hcur, backtrackAux, if_neg hcur]
      have htn : ((cur : ℤ)).toNat = cur := Int.toNat_ofNat cur
      rw [htn]
      obtain ⟨hnn, hlt⟩ := hprev cur hpos htot
      have hcast : (((prev cur).toNat : ℤ)) = prev cur := Int.toNat_of_nonneg hnn
      have hlt' : (prev cur).toNat < cur := by omega
      rw [← hcast]
      rw [ih (prev cur).toNat hlt' (by omega) m₁ m₂ (by omega) (by omega)]

/-- Range of the recorded predecessors under the finiteness condition. -/
theorem prevW_range (speed wait : ℝ) (w : ℕ → WayPoint) (pre : ℕ → ℝ)
    (total : ℕ) (hfin : FiniteCands speed wait w pre total) :
    ∀ i, 1 ≤ i → i ≤ total →
      0 ≤ prevW speed wait w pre i ∧ prevW speed wait w pre i < (i : ℤ) := by
  intro i h1 h2
  obtain ⟨j₀, hj₀, hprev, _, _, _⟩ :=
    dpC_argmin speed wait w pre h1 (hfin i h1 h2)
  rw [hprev]
  exact ⟨Int.natCast_nonneg j₀, by exact_mod_cast hj₀⟩

/-- Shape of the path returned by solve under the finiteness condition:
it runs from 0 up to the terminal, strictly increasing, within bounds. -/
theorem solve_path_props (speed wait : ℝ) (w : ℕ → WayPoint) (pre : ℕ → ℝ)
    (total : ℕ) (hfin : FiniteCands speed wait w pre total) :
    ((solve speed wait w pre total).2).head? = some 0 ∧
    ((solve speed wait w pre total).2).getLast? = some (total : ℤ) ∧
    List.Chain' (· < ·) ((solve speed wait w pre total).2) ∧
    ∀ x ∈ (solve speed wait w pre total).2, 0 ≤ x ∧ x ≤ (total : ℤ) := by
  have hprev := prevW_range speed wait w pre total hfin
  obtain ⟨hh, hch, hb⟩ :=
    backtrackAux_spec (prevW speed wait w pre) total hprev total total le_rfl le_rfl
  have hpath : (solve speed wait w pre total).2 =
      (backtrackAux (prevW speed wait w pre) total (total : ℤ) ++ [0]).reverse := rfl
  refine ⟨?_, ?_, ?_, ?_⟩
  · rw [hpath, List.head?_reverse, List.getLast?_concat]
  · rw [hpath, List.getLast?_reverse, hh]
  · rw [hpath]
    exact List.chain'_reverse.mpr hch
  · intro x hx
    rw [hpath, List.mem_reverse] at hx
    rcases List.mem_append.mp hx with hx' | hx'
    · obtain ⟨h1, h2⟩ := hb x hx'
      exact ⟨le_of_lt h1, h2⟩
    · have : x = 0 := by simpa using hx'
      subst this
      exact ⟨le_refl 0, Int.natCast_nonneg total⟩

/-- The j = 0 candidate of any row, evaluated: the wait parameter and the
dp play no role in it. -/
theorem candF_zero_eval (speed wait : ℝ) (w : ℕ → WayPoint) (pre : ℕ → ℝ)
    (i : ℕ) :
    candF speed wait w pre i 0 = wdist (w 0) (w i) / speed + (pre (i - 1) - pre 0) := by
  simp [candF, dpC_zero]

/-- The finiteness condition does not depend on the wait parameter. -/
theorem FiniteCands_wait_irrel (speed wait wait' : ℝ) (w : ℕ → WayPoint)
    (pre : ℕ → ℝ) (total : ℕ) (h : FiniteCands speed wait w pre total) :
    FiniteCands speed wait' w pre total := by
  intro i h1 h2
  rw [candF_zero_eval]
  rw [← candF_zero_eval speed wait w pre i]
  exact h i h1 h2

/-- Raising the speed preserves the finiteness condition. -/
theorem FiniteCands_speed_mono (s₁ s₂ wait : ℝ) (hs₁ : 0 < s₁) (hs : s₁ ≤ s₂)
    (w : ℕ → WayPoint) (pre : ℕ → ℝ) (total : ℕ)
    (h : FiniteCands s₁ wait w pre total) :
    FiniteCands s₂ wait w pre total := by
  intro i h1 h2
  have hle : wdist (w 0) (w i) / s₂ ≤ wdist (w 0) (w i) / s₁ := by
    gcongr
    exact wdist_nonneg _ _
  have := h i h1 h2
  rw [candF_zero_eval] at this ⊢
  linarith

/-- Evaluation of the dp at row 1 (a course with just start and
terminal). -/
theorem dpC_one (speed wait : ℝ) (w : ℕ → WayPoint) (pre : ℕ → ℝ)
    (h0 : candF speed wait w pre 1 0 < DBL_MAX) :
    dpC speed wait w pre 1 = wdist (w 0) (w 1) / speed + (pre 0 - pre 0) + wait := by
  obtain ⟨j₀, hj₀, _, hdp, _, _⟩ := dpC_argmin speed wait w pre le_rfl h0
  have : j₀ = 0 := by omega
  subst this
  rw [hdp, candF_zero_eval]

/-- The reconstructed path of a two-point course is always [0, 1]. -/
theorem solve_one_path (speed wait : ℝ) (w : ℕ → WayPoint) (pre : ℕ → ℝ) :
    (solve speed wait w pre 1).2 = [0, 1] := by
  have h : backtrackAux (prevW speed wait w pre) 1 ((1 : ℕ) : ℤ) = [(1 : ℤ)] := by
    rw [show ((1 : ℕ) : ℤ) = (1 : ℤ) from rfl, backtrackAux, if_neg one_ne_zero]
    rfl
  show (backtrackAux (prevW speed wait w pre) 1 ((1 : ℕ) : ℤ) ++
    ([0] : List ℤ)).reverse = ([0, 1] : List ℤ)
  rw [h]
  rfl

/-- The all-zero course used as the concrete instance in witnesses. -/
noncomputable def wZero : ℕ → WayPoint := fun _ => ⟨0, 0, 0⟩

theorem wdist_wZero (i j : ℕ) : wdist (wZero i) (wZero j) = 0 := by
  simp [wdist, wZero]

theorem prefixSums_wZero (k : ℕ) : prefixSums wZero k = 0 := by
  induction k with
  | zero => rfl
  | succ k ih => simp [prefixSums, ih, wZero]

theorem prefixPen_wZero (n i : ℕ) : prefixPen wZero n i = 0 := by
  unfold prefixPen
  rw [prefixSums_wZero, prefixSums_wZero]
  simp

theorem FiniteCands_wZero (speed wait : ℝ) (n : ℕ) :
    FiniteCands speed wait wZero (prefixPen wZero n) (n + 1) := by
  intro i h1 h2
  rw [candF_zero_eval, wdist_wZero, prefixPen_wZero, prefixPen_wZero]
  simpa using DBL_MAX_pos

theorem travelCost_nonneg (speed : ℝ) (hs : 0 < speed) (w : ℕ → WayPoint) :
    ∀ p : List ℕ, 0 ≤ travelCost speed w p := by
  intro p
  induction p with
  | nil => simp [travelCost]
  | cons a t ih =>
      cases t with
      | nil => simp [travelCost]
      | cons b t' =>
          rw [travelCost]
          have h1 : 0 ≤ wdist (w a) (w b) / speed :=
            div_nonneg (wdist_nonneg _ _) (le_of_lt hs)
          linarith

theorem travelCost_speed_mono (s₁ s₂ : ℝ) (hs₁ : 0 < s₁) (hs : s₁ ≤ s₂)
    (w : ℕ → WayPoint) : ∀ p : List ℕ, travelCost s₂ w p ≤ travelCost s₁ w p := by
  intro p
  induction p with
  | nil => simp [travelCost]
  | cons a t ih =>
      cases t with
      | nil => simp [travelCost]
      | cons b t' =>
          rw [travelCost, travelCost]
          have h1 : wdist (w a) (w b) / s₂ ≤ wdist (w a) (w b) / s₁ := by
            gcongr
            exact wdist_nonneg _ _
          linarith

theorem pathCostTo_nonneg (speed wait : ℝ) (hs : 0 < speed) (hw : 0 ≤ wait)
    (w : ℕ → WayPoint) (hpen : ∀ k, 0 ≤ (w k).penalty) (i : ℕ) (p : List ℕ) :
    0 ≤ pathCostTo speed wait w i p := by
  unfold pathCostTo
  have h1 := travelCost_nonneg speed hs w p
  have h2 : 0 ≤ wait * ((p.length - 1 : ℕ) : ℝ) :=
    mul_nonneg hw (Nat.cast_nonneg _)
  have h3 : 0 ≤ ∑ k in Finset.Ioo 0 i \ p.toFinset, (w k).penalty :=
    Finset.sum_nonneg fun k _ => hpen k
  linarith

theorem pathCostTo_wait_mono (speed w₁ w₂ : ℝ) (hw : w₁ ≤ w₂)
    (w : ℕ → WayPoint) (i : ℕ) (p : List ℕ) :
    pathCostTo speed w₁ w i p ≤ pathCostTo speed w₂ w i p := by
  unfold pathCostTo
  have h := mul_le_mul_of_nonneg_right hw
    (Nat.cast_nonneg (α := ℝ) (p.length - 1))
  linarith

theorem pathCostTo_speed_mono (s₁ s₂ wait : ℝ) (hs₁ : 0 < s₁) (hs : s₁ ≤ s₂)
    (w : ℕ → WayPoint) (i : ℕ) (p : List ℕ) :
    pathCostTo s₂ wait w i p ≤ pathCostTo s₁ wait w i p := by
  unfold pathCostTo
  have h := travelCost_speed_mono s₁ s₂ hs₁ hs w p
  linarith

/-- Claim C1: for every course with n interior waypoints, every speed > 0
and wait_time ≥ 0 (and inputs whose direct-flight candidates stay below
DBL_MAX, i.e. representable without overflow), the minTime returned by
solve is the true global minimum over all admissible visiting sequences
(start and terminal included, interior indices increasing) of travel time
divided by speed, plus one wait_time per visited node after the start,
plus the skip penalty of every unvisited waypoint. -/
theorem C1_solve_is_global_min (n : ℕ) (w : ℕ → WayPoint) (speed wait : ℝ)
    (hspeed : 0 < speed) (hwait : 0 ≤ wait)
    (hfin : FiniteCands speed wait w (prefixPen w n) (n + 1)) :
    IsLeast {c : ℝ | ∃ p, ValidPathTo (n + 1) p ∧
        pathCostTo speed wait w (n + 1) p = c}
      ((solve speed wait w (prefixPen w n) (n + 1)).1) :=
  dpC_isLeast speed wait w n hfin (n + 1) le_rfl

theorem C1_witness :
    IsLeast {c : ℝ | ∃ p, ValidPathTo 1 p ∧ pathCostTo 1 0 wZero 1 p = c}
      ((solve 1 0 wZero (prefixPen wZero 0) 1).1) :=
  C1_solve_is_global_min 0 wZero 1 0 one_pos le_rfl (FiniteCands_wZero 1 0 0)

theorem inf'_congr_on {s : Finset ℕ} (H : s.Nonempty) (f g : ℕ → ℝ)
    (h : ∀ x ∈ s, f x = g x) : s.inf' H f = s.inf' H g := by
  apply le_antisymm
  · refine Finset.le_inf' _ _ fun b hb => ?_
    rw [← h b hb]
    exact Finset.inf'_le _ hb
  · refine Finset.le_inf' _ _ fun b hb => ?_
    rw [h b hb]
    exact Finset.inf'_le _ hb

/-- Claim C2: solve computes dp exactly by the spec's recurrence:
dp 0 = 0, dp i = wait_time plus the minimum over j < i of
dp j + distance(j, i)/speed + (penaltyPrefix (i-1) - penaltyPrefix j)
where penaltyPrefix k is the sum of skip penalties of waypoints 1..k, and
the returned minTime is dp (N+1). -/
theorem C2_dp_recurrence (n : ℕ) (w : ℕ → WayPoint) (speed wait : ℝ)
    (hfin : FiniteCands speed wait w (prefixPen w n) (n + 1)) :
    dpC speed wait w (prefixPen w n) 0 = 0 ∧
    (∀ i, ∀ h1 : 1 ≤ i, i ≤ n + 1 →
      dpC speed wait w (prefixPen w n) i =
        wait + (Finset.range i).inf' ⟨0, Finset.mem_range.mpr h1⟩
          (fun j => dpC speed wait w (prefixPen w n) j +
            wdist (w j) (w i) / speed +
            ((∑ m in Finset.Icc 1 (i - 1), (w m).penalty) -
              ∑ m in Finset.Icc 1 j, (w m).penalty))) ∧
    (solve speed wait w (prefixPen w n) (n + 1)).1 =
      dpC speed wait w (prefixPen w n) (n + 1) := by
  refine ⟨dpC_zero _ _ _ _, ?_, rfl⟩
  intro i h1 hi
  obtain ⟨j₀, hj₀, _, hdp, hmin, _⟩ :=
    dpC_argmin speed wait w (prefixPen w n) h1 (hfin i h1 hi)
  have hinf : (Finset.range i).inf' ⟨0, Finset.mem_range.mpr h1⟩
      (candF speed wait w (prefixPen w n) i) =
      candF speed wait w (prefixPen w n) i j₀ := by
    apply le_antisymm
    · exact Finset.inf'_le _ (Finset.mem_range.mpr hj₀)
    · exact Finset.le_inf' _ _ fun b hb => hmin b (Finset.mem_range.mp hb)
  have hcongr : (Finset.range i).inf' ⟨0, Finset.mem_range.mpr h1⟩
      (fun j => dpC speed wait w (prefixPen w n) j +
        wdist (w j) (w i) / speed +
        ((∑ m in Finset.Icc 1 (i - 1), (w m).penalty) -
          ∑ m in Finset.Icc 1 j, (w m).penalty)) =
      (Finset.range i).inf' ⟨0, Finset.mem_range.mpr h1⟩
        (candF speed wait w (prefixPen w n) i) := by
    apply inf'_congr_on
    intro x hx
    rw [candF_prefixPen speed wait w n (Finset.mem_range.mp hx) hi,
      prefixSums_eq_sum, prefixSums_eq_sum]
  rw [hcongr, hinf, hdp]
  ring

theorem C2_witness :
    dpC 1 0 wZero (prefixPen wZero 0) 0 = 0 ∧
    (∀ i, ∀ h1 : 1 ≤ i, i ≤ 0 + 1 →
      dpC 1 0 wZero (prefixPen wZero 0) i =
        0 + (Finset.range i).inf' ⟨0, Finset.mem_range.mpr h1⟩
          (fun j => dpC 1 0 wZero (prefixPen wZero 0) j +
            wdist (wZero j) (wZero i) / 1 +
            ((∑ m in Finset.Icc 1 (i - 1), (wZero m).penalty) -
              ∑ m in Finset.Icc 1 j, (wZero m).penalty))) ∧
    (solve 1 0 wZero (prefixPen wZero 0) (0 + 1)).1 =
      dpC 1 0 wZero (prefixPen wZero 0) (0 + 1) :=
  C2_dp_recurrence 0 wZero 1 0 (FiniteCands_wZero 1 0 0)

/-- Claim C3 counterexample: a non-positive speed is not rejected: the
constructor stores -1 unchanged and solve runs to completion, returning
the ordinary numeric result 10 on a two-point course. -/
theorem C3_counterexample :
    (DeliveryUAV.make (-1) 10).uav_speed = -1 ∧
    (solve (-1) 10 wZero (prefixPen wZero 0) 1).1 = 10 := by
  refine ⟨rfl, ?_⟩
  have h0 : candF (-1) 10 wZero (prefixPen wZero 0) 1 0 < DBL_MAX :=
    FiniteCands_wZero (-1) 10 0 1 le_rfl le_rfl
  show dpC (-1) 10 wZero (prefixPen wZero 0) 1 = 10
  rw [dpC_one (-1) 10 wZero (prefixPen wZero 0) h0, wdist_wZero]
  norm_num

/-- Claim C3 amended: neither the constructor nor solve validates the
speed: the constructor stores a non-positive speed unchanged (validity is
documented as the caller's responsibility) and solve proceeds with the
division by it, producing an ordinary numeric result instead of an
InvalidParameter error. -/
theorem C3_amended (speed wait : ℝ) (hs : speed ≤ 0) (w : ℕ → WayPoint)
    (pre : ℕ → ℝ) (h0 : candF speed wait w pre 1 0 < DBL_MAX) :
    (DeliveryUAV.make speed wait).uav_speed = speed ∧
    (DeliveryUAV.make speed wait).wait_time = wait ∧
    (solve speed wait w pre 1).1 =
      wdist (w 0) (w 1) / speed + (pre 0 - pre 0) + wait :=
  ⟨rfl, rfl, dpC_one speed wait w pre h0⟩

theorem C3_amended_witness :
    (DeliveryUAV.make (-1) 10).uav_speed = -1 ∧
    (DeliveryUAV.make (-1) 10).wait_time = 10 ∧
    (solve (-1) 10 wZero (prefixPen wZero 0) 1).1 =
      wdist (wZero 0) (wZero 1) / (-1) +
        (prefixPen wZero 0 0 - prefixPen wZero 0 0) + 10 :=
  C3_amended (-1) 10 (by norm_num) wZero (prefixPen wZero 0)
    (FiniteCands_wZero (-1) 10 0 1 le_rfl le_rfl)

/-- Claim C4: for every course and speed > 0 (with representable inputs),
the path returned by solve starts with index 0, ends with index N+1, is
strictly increasing, and every entry is 0, N+1, or a waypoint in 1..N. -/
theorem C4_path_shape (n : ℕ) (w : ℕ → WayPoint) (speed wait : ℝ)
    (hspeed : 0 < speed)
    (hfin : FiniteCands speed wait w (prefixPen w n) (n + 1)) :
    ((solve speed wait w (prefixPen w n) (n + 1)).2).head? = some 0 ∧
    ((solve speed wait w (prefixPen w n) (n + 1)).2).getLast? =
      some ((n + 1 : ℕ) : ℤ) ∧
    List.Chain' (· < ·) ((solve speed wait w (prefixPen w n) (n + 1)).2) ∧
    ∀ x ∈ (solve speed wait w (prefixPen w n) (n + 1)).2,
      x = 0 ∨ x = ((n + 1 : ℕ) : ℤ) ∨ (1 ≤ x ∧ x ≤ (n : ℤ)) := by
  obtain ⟨h1, h2, h3, h4⟩ :=
    solve_path_props speed wait w (prefixPen w n) (n + 1) hfin
  refine ⟨h1, h2, h3, ?_⟩
  intro x hx
  obtain ⟨hx1, hx2⟩ := h4 x hx
  have : ((n + 1 : ℕ) : ℤ) = (n : ℤ) + 1 := by push_cast; ring
  omega

theorem C4_witness :
    ((solve 1 0 wZero (prefixPen wZero 1) (1 + 1)).2).head? = some 0 ∧
    ((solve 1 0 wZero (prefixPen wZero 1) (1 + 1)).2).getLast? =
      some ((1 + 1 : ℕ) : ℤ) ∧
    List.Chain' (· < ·) ((solve 1 0 wZero (prefixPen wZero 1) (1 + 1)).2) ∧
    ∀ x ∈ (solve 1 0 wZero (prefixPen wZero 1) (1 + 1)).2,
      x = 0 ∨ x = ((1 + 1 : ℕ) : ℤ) ∨ (1 ≤ x ∧ x ≤ (1 : ℤ)) :=
  C4_path_shape 1 wZero 1 0 one_pos (FiniteCands_wZero 1 0 1)

/-- Claim C5: for a course with no interior waypoints (start and terminal
only) and speed > 0, solve returns exactly the direct travel time plus one
wait_time, and the path [0, 1]. -/
theorem C5_no_waypoints (w : ℕ → WayPoint) (speed wait : ℝ)
    (hspeed : 0 < speed) (hfin : wdist (w 0) (w 1) / speed < DBL_MAX) :
    solve speed wait w (prefixPen w 0) 1 =
      (wdist (w 0) (w 1) / speed + wait, [0, 1]) := by
  have h0 : candF speed wait w (prefixPen w 0) 1 0 < DBL_MAX := by
    rw [candF_zero_eval]
    simpa using hfin
  have hd := dpC_one speed wait w (prefixPen w 0) h0
  have hp := solve_one_path speed wait w (prefixPen w 0)
  have hfst : (solve speed wait w (prefixPen w 0) 1).1 =
      wdist (w 0) (w 1) / speed + wait := by
    show dpC speed wait w (prefixPen w 0) 1 = _
    rw [hd]
    ring_nf
  exact Prod.ext hfst hp

theorem C5_witness :
    solve 2 10 wZero (prefixPen wZero 0) 1 =
      (wdist (wZero 0) (wZero 1) / 2 + 10, [0, 1]) :=
  C5_no_waypoints wZero 2 10 (by norm_num)
    (by rw [wdist_wZero]; simpa using DBL_MAX_pos)

/-- Claim C6: the first minimum found is kept: prev i is the smallest
predecessor attaining the minimal candidate, and a second run of the
optimizer on the same course and parameters returns the identical
result. -/
theorem C6_deterministic_tie_break (n : ℕ) (w : ℕ → WayPoint) (speed wait : ℝ)
    (hfin : FiniteCands speed wait w (prefixPen w n) (n + 1)) :
    (∀ i, 1 ≤ i → i ≤ n + 1 → ∃ j₀ : ℕ, j₀ < i ∧
      prevW speed wait w (prefixPen w n) i = (j₀ : ℤ) ∧
      (∀ j < i, candF speed wait w (prefixPen w n) i j₀ ≤
        candF speed wait w (prefixPen w n) i j) ∧
      (∀ j < j₀, candF speed wait w (prefixPen w n) i j₀ <
        candF speed wait w (prefixPen w n) i j)) ∧
    solve speed wait w (prefixPen w n) (n + 1) =
      solve speed wait w (prefixPen w n) (n + 1) := by
  refine ⟨?_, rfl⟩
  intro i h1 hi
  obtain ⟨j₀, hj₀, hp, _, hmin, hfirst⟩ :=
    dpC_argmin speed wait w (prefixPen w n) h1 (hfin i h1 hi)
  exact ⟨j₀, hj₀, hp, hmin, hfirst⟩

theorem C6_witness :
    (∀ i, 1 ≤ i → i ≤ 0 + 1 → ∃ j₀ : ℕ, j₀ < i ∧
      prevW 1 0 wZero (prefixPen wZero 0) i = (j₀ : ℤ) ∧
      (∀ j < i, candF 1 0 wZero (prefixPen wZero 0) i j₀ ≤
        candF 1 0 wZero (prefixPen wZero 0) i j) ∧
      (∀ j < j₀, candF 1 0 wZero (prefixPen wZero 0) i j₀ <
        candF 1 0 wZero (prefixPen wZero 0) i j)) ∧
    solve 1 0 wZero (prefixPen wZero 0) (0 + 1) =
      solve 1 0 wZero (prefixPen wZero 0) (0 + 1) :=
  C6_deterministic_tie_break 0 wZero 1 0 (FiniteCands_wZero 1 0 0)

/-- Claim C7: with nonnegative penalties, for valid parameters the
returned minTime is nonnegative, non-decreasing in the wait time and
non-increasing in the speed. -/
theorem C7_monotonicity (n : ℕ) (w : ℕ → WayPoint)
    (hpen : ∀ k, 0 ≤ (w k).penalty) :
    (∀ speed wait : ℝ, 0 < speed → 0 ≤ wait →
      FiniteCands speed wait w (prefixPen w n) (n + 1) →
      0 ≤ (solve speed wait w (prefixPen w n) (n + 1)).1) ∧
    (∀ speed wait₁ wait₂ : ℝ, 0 < speed → 0 ≤ wait₁ → wait₁ ≤ wait₂ →
      FiniteCands speed wait₁ w (prefixPen w n) (n + 1) →
      (solve speed wait₁ w (prefixPen w n) (n + 1)).1 ≤
        (solve speed wait₂ w (prefixPen w n) (n + 1)).1) ∧
    (∀ s₁ s₂ wait : ℝ, 0 < s₁ → s₁ ≤ s₂ → 0 ≤ wait →
      FiniteCands s₁ wait w (prefixPen w n) (n + 1) →
      (solve s₂ wait w (prefixPen w n) (n + 1)).1 ≤
        (solve s₁ wait w (prefixPen w n) (n + 1)).1) := by
  refine ⟨?_, ?_, ?_⟩
  · intro speed wait hs hw hfin
    obtain ⟨⟨p, _, hc⟩, _⟩ := dpC_isLeast speed wait w n hfin (n + 1) le_rfl
    have := pathCostTo_nonneg speed wait hs hw w hpen (n + 1) p
    show 0 ≤ dpC speed wait w (prefixPen w n) (n + 1)
    rw [← hc]
    exact this
  · intro speed wait₁ wait₂ hs hw1 hw hfin
    have hfin₂ := FiniteCands_wait_irrel speed wait₁ wait₂ w (prefixPen w n)
      (n + 1) hfin
    obtain ⟨⟨p₂, hv₂, hc₂⟩, _⟩ := dpC_isLeast speed wait₂ w n hfin₂ (n + 1) le_rfl
    have hlow := (dpC_isLeast speed wait₁ w n hfin (n + 1) le_rfl).2
      ⟨p₂, hv₂, rfl⟩
    have hmono := pathCostTo_wait_mono speed wait₁ wait₂ hw w (n + 1) p₂
    show dpC speed wait₁ w (prefixPen w n) (n + 1) ≤
      dpC speed wait₂ w (prefixPen w n) (n + 1)
    rw [← hc₂]
    exact le_trans hlow hmono
  · intro s₁ s₂ wait hs₁ hs hw hfin
    have hfin₂ := FiniteCands_speed_mono s₁ s₂ wait hs₁ hs w (prefixPen w n)
      (n + 1) hfin
    obtain ⟨⟨p₁, hv₁, hc₁⟩, _⟩ := dpC_isLeast s₁ wait w n hfin (n + 1) le_rfl
    have hlow := (dpC_isLeast s₂ wait w n hfin₂ (n + 1) le_rfl).2
      ⟨p₁, hv₁, rfl⟩
    have hmono := pathCostTo_speed_mono s₁ s₂ wait hs₁ hs w (n + 1) p₁
    show dpC s₂ wait w (prefixPen w n) (n + 1) ≤
      dpC s₁ wait w (prefixPen w n) (n + 1)
    rw [← hc₁]
    exact le_trans hlow hmono

theorem C7_witness :
    (∀ speed wait : ℝ, 0 < speed → 0 ≤ wait →
      FiniteCands speed wait wZero (prefixPen wZero 0) (0 + 1) →
      0 ≤ (solve speed wait wZero (prefixPen wZero 0) (0 + 1)).1) ∧
    (∀ speed wait₁ wait₂ : ℝ, 0 < speed → 0 ≤ wait₁ → wait₁ ≤ wait₂ →
      FiniteCands speed wait₁ wZero (prefixPen wZero 0) (0 + 1) →
      (solve speed wait₁ wZero (prefixPen wZero 0) (0 + 1)).1 ≤
        (solve speed wait₂ wZero (prefixPen wZero 0) (0 + 1)).1) ∧
    (∀ s₁ s₂ wait : ℝ, 0 < s₁ → s₁ ≤ s₂ → 0 ≤ wait →
      FiniteCands s₁ wait wZero (prefixPen wZero 0) (0 + 1) →
      (solve s₂ wait wZero (prefixPen wZero 0) (0 + 1)).1 ≤
        (solve s₁ wait wZero (prefixPen wZero 0) (0 + 1)).1) :=
  C7_monotonicity 0 wZero (fun k => le_refl 0)

/-- Claim C8 counterexample: with the start and terminal coordinates
entirely missing from the input stream, solveCase does not fail with any
error: it returns exit status 0 and a result computed from the defaulted
zero coordinates. -/
theorem C8_counterexample :
    (solveCase 2 10 0 []).1 = 0 ∧ (solveCase 2 10 0 []).2 ≠ none := by
  constructor
  · simp [solveCase]
  · simp [solveCase]

/-- Claim C8 amended: solveCase never checks that the start and terminal
coordinates are present: for every nonnegative waypoint count and every
token list, even one too short to contain the coordinates, the failed
extractions leave 0.0 in place and the run proceeds to the dp, returning
success with a computed result. -/
theorem C8_amended (speed wait : ℝ) (nTok : ℤ) (rest : List ℝ)
    (h : 0 ≤ nTok) :
    (solveCase speed wait nTok rest).1 = 0 ∧
    (solveCase speed wait nTok rest).2 ≠ none := by
  unfold solveCase
  rw [if_neg (not_lt.mpr h)]
  exact ⟨rfl, by simp⟩

theorem C8_amended_witness :
    (solveCase 2 10 0 ([] : List ℝ)).1 = 0 ∧
    (solveCase 2 10 0 ([] : List ℝ)).2 ≠ none :=
  C8_amended 2 10 0 [] le_rfl

/-- Claim C9: a negative waypoint count is rejected eagerly: solveCase
returns the failure status 1 before any dp computation, with no result
written. -/
theorem C9_negative_count (speed wait : ℝ) (nTok : ℤ) (rest : List ℝ)
    (h : nTok < 0) :
    solveCase speed wait nTok rest = (1, none) := by
  unfold solveCase
  rw [if_pos h]

theorem C9_witness : solveCase 2 10 (-1) ([] : List ℝ) = (1, none) :=
  C9_negative_count 2 10 (-1) [] (by norm_num)

/-- Claim C10: under the finiteness condition the -1 sentinel is always
overwritten: every recorded predecessor lies in [0, i); consequently the
backtrace from the terminal strictly decreases at every step, reaches
index 0, and is unchanged by any larger fuel bound (the source's while
loop terminates). -/
theorem C10_backtrace_terminates (n : ℕ) (w : ℕ → WayPoint) (speed wait : ℝ)
    (hfin : FiniteCands speed wait w (prefixPen w n) (n + 1)) :
    (∀ i, 1 ≤ i → i ≤ n + 1 →
      0 ≤ prevW speed wait w (prefixPen w n) i ∧
      prevW speed wait w (prefixPen w n) i < (i : ℤ)) ∧
    List.Chain' (fun a b => b < a)
      (backtrackAux (prevW speed wait w (prefixPen w n)) (n + 1)
        ((n + 1 : ℕ) : ℤ) ++ [0]) ∧
    (∀ fuel, n + 1 ≤ fuel →
      backtrackAux (prevW speed wait w (prefixPen w n)) fuel
        ((n + 1 : ℕ) : ℤ) =
      backtrackAux (prevW speed wait w (prefixPen w n)) (n + 1)
        ((n + 1 : ℕ) : ℤ)) := by
  have hprev := prevW_range speed wait w (prefixPen w n) (n + 1) hfin
  refine ⟨hprev, ?_, ?_⟩
  · exact (backtrackAux_spec _ _ hprev (n + 1) (n + 1) le_rfl le_rfl).2.1
  · intro fuel hf
    exact backtrackAux_stable _ _ hprev (n + 1) le_rfl fuel (n + 1) hf le_rfl

theorem C10_witness :
    (∀ i, 1 ≤ i → i ≤ 0 + 1 →
      0 ≤ prevW 1 0 wZero (prefixPen wZero 0) i ∧
      prevW 1 0 wZero (prefixPen wZero 0) i < (i : ℤ)) ∧
    List.Chain' (fun a b => b < a)
      (backtrackAux (prevW 1 0 wZero (prefixPen wZero 0)) (0 + 1)
        ((0 + 1 : ℕ) : ℤ) ++ [0]) ∧
    (∀ fuel, 0 + 1 ≤ fuel →
      backtrackAux (prevW 1 0 wZero (prefixPen wZero 0)) fuel
        ((0 + 1 : ℕ) : ℤ) =
      backtrackAux (prevW 1 0 wZero (prefixPen wZero 0)) (0 + 1)
        ((0 + 1 : ℕ) : ℤ)) :=
  C10_backtrace_terminates 0 wZero 1 0 (FiniteCands_wZero 1 0 0)

end UAV
